import Mathlib

/-!
Verification of the NMEA-AIS generator's binary codec and sentence-framing
layer (`nmea_msg.py`) against its natural-language specification.

Python strings are embedded as `List Char`; bit strings are lists of the
characters `'0'`/`'1'`.  The helper modules `nmea_utils`, `ais_utils` and
`constants` are not part of the sources provided, so their functions are
modelled from the specification (each such definition is marked
`Modelled from the spec:`).  Everything in `nmea_msg.py` itself is
translated directly from that file.  Recursions that a proof or a concrete
evaluation must unfold are written structurally (with explicit fuel where
needed) so that the kernel can reduce them.
-/

namespace NMEAAIS

/-- Little-endian helper for `convert_int_to_bits`: the low `w` bits of `n`,
least significant first. -/
def natToBitsAux : Nat → Nat → List Char
  | 0, _ => []
  | w + 1, n => (if n % 2 = 1 then '1' else '0') :: natToBitsAux w (n / 2)

/-- The low `w` bits of `n` as a bit string, most significant bit first. -/
def natToBits (n w : Nat) : List Char := (natToBitsAux w n).reverse

/-- Modelled from the spec: `int_to_bits` of the missing `nmea_utils` module
(spec 4.1): a bit-field of exactly `bits_count` characters; with
`signed = true` a negative value is encoded as its two's-complement
representation at that width. -/
def convert_int_to_bits (num : Int) (bits_count : Nat) (signed : Bool) : List Char :=
  natToBits (if signed = true ∧ num < 0 then (2 ^ bits_count + num).toNat else num.toNat)
    bits_count

/-- Modelled from the spec: `bits_to_int` of the missing `nmea_utils` module
(spec 4.1): unsigned interpretation of a bit-field. -/
def convert_bits_to_int (bits : List Char) : Nat :=
  bits.foldl (fun acc c => 2 * acc + (if c = '1' then 1 else 0)) 0

/-- Modelled from the spec: `ascii_armor_char`'s two-range lookup of the
missing `nmea_utils` module (spec 4.1): `value < 40 ? value + 48 : value + 56`. -/
def convert_decimal_to_ascii_code (decimal_num : Nat) : Nat :=
  if decimal_num < 40 then decimal_num + 48 else decimal_num + 56

/-- Modelled from the spec: `get_char_of_ascii_code` of the missing
`nmea_utils` module: the character with the given ASCII code. -/
def get_char_of_ascii_code (ascii_code : Nat) : Char := Char.ofNat ascii_code

/-- Payload armoring of one six-bit group, as in the loop body of
`AISMsg.encode` / `AISMsgPayload.encode` (`nmea_msg.py` lines 44-46). -/
def armorChar (item : List Char) : Char :=
  get_char_of_ascii_code (convert_decimal_to_ascii_code (convert_bits_to_int item))

/-- `AISMsg.encode` / `AISMsgPayload.encode` (`nmea_msg.py` lines 33-48 and
164-179): the payload bit string is wrapped into six-bit groups
(`textwrap.wrap(payload_bits, 6)`), the final short group is right-padded
with `'0'` bits, each added bit incrementing the message's `fill_bits`
attribute, and every group is armored into one ASCII character.  The
mutable `self.fill_bits` is made explicit: the function takes the
attribute's value before the call and returns the armored payload paired
with the attribute's value after the call. -/
def encodeBits : List Char → Nat → List Char × Nat
  | [], fill => ([], fill)
  | [a], fill => ([armorChar [a, '0', '0', '0', '0', '0']], fill + 5)
  | [a, b], fill => ([armorChar [a, b, '0', '0', '0', '0']], fill + 4)
  | [a, b, c], fill => ([armorChar [a, b, c, '0', '0', '0']], fill + 3)
  | [a, b, c, d], fill => ([armorChar [a, b, c, d, '0', '0']], fill + 2)
  | [a, b, c, d, e], fill => ([armorChar [a, b, c, d, e, '0']], fill + 1)
  | a :: b :: c :: d :: e :: g :: rest, fill =>
      let r := encodeBits rest fill
      (armorChar [a, b, c, d, e, g] :: r.1, r.2)

/-- The specification's inverse reading of a signed bit-field (spec 8:
"decoding the encoded signed bit-field back to an integer"): standard
two's-complement interpretation at the field's width. -/
def decode_signed (bits : List Char) : Int :=
  if convert_bits_to_int bits < 2 ^ (bits.length - 1) then (convert_bits_to_int bits : Int)
  else (convert_bits_to_int bits : Int) - 2 ^ bits.length

/-- Python's `int()` applied to a rational value: truncation toward zero
(`nmea_msg.py` line 114, `int(value * 600000)`). -/
def ratTrunc (q : ℚ) : Int := if q < 0 then Int.ceil q else Int.floor q

/-- The lat/lon branch of `AISMsgPayloadType1._fields_to_bits`
(`nmea_msg.py` lines 112-115): `value = int(value * 600000)` followed by
`convert_int_to_bits(num=value, bits_count=bits_count, signed=True)`. -/
def latlon_to_bits (value : ℚ) (bits_count : Nat) : List Char :=
  convert_int_to_bits (ratTrunc (value * 600000)) bits_count true

/-- Modelled from the spec: `add_padding` of the missing `nmea_utils` module
(spec 4.2): right-pad with space characters to the declared character
count. -/
def add_padding (text : List Char) (required_length : Nat) : List Char :=
  text ++ List.replicate (required_length - text.length) ' '

/-- Modelled from the spec: `add_padding_0_bits` of the missing `nmea_utils`
module: right-pad a bit string with `'0'` bits to the required length and
return the padded string together with the number of bits added. -/
def add_padding_0_bits (bits_string : List Char) (required_length : Nat) : List Char × Nat :=
  (bits_string ++ List.replicate (required_length - bits_string.length) '0',
    required_length - bits_string.length)

/-- Modelled from the spec: `ascii6_from_char` of the missing `nmea_utils`
module (spec 4.1): maps a character of the AIS six-bit alphabet (`'@'`
through `'_'` to ordinals 0-31, space through `'?'` to ordinals 32-63) to
its ASCII6 ordinal; any other character is an `InvalidCharacterError`. -/
def convert_ascii_char_to_ascii6_code (c : Char) : Option Nat :=
  if 64 ≤ c.toNat ∧ c.toNat ≤ 95 then some (c.toNat - 64)
  else if 32 ≤ c.toNat ∧ c.toNat ≤ 63 then some c.toNat
  else none

/-- The per-character loop shared by the `call_sign`, `ship_name` and
`destination` setters (`nmea_msg.py` lines 232-238, 259-265, 321-327):
each character is mapped to its ASCII6 code and the codes are rendered as
consecutive six-bit groups; a character outside the alphabet raises. -/
def ascii6_bits : List Char → Option (List Char)
  | [] => some []
  | c :: cs =>
    match convert_ascii_char_to_ascii6_code c, ascii6_bits cs with
    | some code, some rest => some (convert_int_to_bits (code : Int) 6 false ++ rest)
    | _, _ => none

/-- `AISMsgType5.call_sign` setter (`nmea_msg.py` lines 220-241).  The
mutable `self.fill_bits` attribute is made explicit: the setter receives
its value and returns the stored bit string paired with the attribute's
value after the assignment (the `add_padding_0_bits` branch overwrites
it). -/
def call_sign_setter (call_sign : List Char) (fill_bits : Nat) :
    Except Unit (List Char × Nat) :=
  if 7 < call_sign.length then .error ()
  else
    match ascii6_bits
        (if call_sign.length = 0 then List.replicate 7 '@' else add_padding call_sign 7) with
    | none => .error ()
    | some bits =>
      if bits.length < 42 then .ok (add_padding_0_bits bits 42)
      else .ok (bits, fill_bits)

/-- `AISMsgType5.ship_name` setter (`nmea_msg.py` lines 247-266). -/
def ship_name_setter (ship_name : List Char) : Except Unit (List Char) :=
  if 20 < ship_name.length then .error ()
  else
    match ascii6_bits
        (if ship_name.length = 0 then List.replicate 20 '@' else add_padding ship_name 20) with
    | none => .error ()
    | some bits => .ok bits

/-- `AISMsgType5.ship_type` setter (`nmea_msg.py` lines 272-276):
`if value not in range(1, 100): raise ValueError(...)`, otherwise the value
is encoded unsigned at 8 bits. -/
def ship_type_setter (value : Int) : Except Unit (List Char) :=
  if value < 1 ∨ 99 < value then .error ()
  else .ok (convert_int_to_bits value 8 false)

/-- `AISMsgType5.draught` setter (`nmea_msg.py` lines 298-304): negative
values raise, values above 25.5 are clamped to 25.5, and `int(value * 10)`
is encoded unsigned at 8 bits. -/
def draught_setter (value : ℚ) : Except Unit (List Char) :=
  if value < 0 then .error ()
  else .ok (convert_int_to_bits
    (ratTrunc ((if 25.5 < value then (25.5 : ℚ) else value) * 10)) 8 false)

/-- `AISMsgType5.destination` setter (`nmea_msg.py` lines 310-328). -/
def destination_setter (destination : List Char) : Except Unit (List Char) :=
  if 20 < destination.length then .error ()
  else
    match ascii6_bits
        (if destination.length = 0 then List.replicate 20 '@'
         else add_padding destination 20) with
    | none => .error ()
    | some bits => .ok bits

/-- Modelled from the spec: `ShipDimension` of the missing `ais_utils`
module (spec 4.3): four unsigned sub-fields, bow/stern clamped to 511 at
9 bits and port/starboard clamped to 63 at 6 bits, concatenated in fixed
order into a 30-bit block. -/
structure ShipDimension where
  to_bow : Nat
  to_stern : Nat
  to_port : Nat
  to_starboard : Nat

/-- Modelled from the spec: the 30-bit block of a `ShipDimension`. -/
def ShipDimension.bits (d : ShipDimension) : List Char :=
  convert_int_to_bits (min d.to_bow 511 : Nat) 9 false ++
    convert_int_to_bits (min d.to_stern 511 : Nat) 9 false ++
    convert_int_to_bits (min d.to_port 63 : Nat) 6 false ++
    convert_int_to_bits (min d.to_starboard 63 : Nat) 6 false

/-- Modelled from the spec: `ShipEta` of the missing `ais_utils` module
(spec 4.3): month 4 bits, day 5 bits, hour 5 bits, minute 6 bits. -/
structure ShipEta where
  month : Nat
  day : Nat
  hour : Nat
  minute : Nat

/-- Modelled from the spec: the 20-bit block of a `ShipEta`. -/
def ShipEta.bits (e : ShipEta) : List Char :=
  convert_int_to_bits (e.month : Nat) 4 false ++ convert_int_to_bits (e.day : Nat) 5 false ++
    convert_int_to_bits (e.hour : Nat) 5 false ++ convert_int_to_bits (e.minute : Nat) 6 false

/-- The encoded state of an `AISMsgType5` object (`nmea_msg.py` lines
182-341): every field holds the bit string stored by the corresponding
setter, plus the mutable `fill_bits` attribute. -/
structure AISMsgType5 where
  repeat_indicator : List Char
  mmsi : List Char
  fill_bits : Nat
  msg_type : List Char
  ais_version : List Char
  imo : List Char
  call_sign : List Char
  ship_name : List Char
  ship_type : List Char
  dimension : List Char
  pos_fix_type : List Char
  eta : List Char
  draught : List Char
  destination : List Char
  dte : List Char
  spare : List Char

/-- `AISMsgType5.__init__` (`nmea_msg.py` lines 189-206 together with
`AISMsg.__init__` lines 139-143): runs every setter in order; any raising
setter aborts construction.  `fill_bits` starts at 0 and is owned by the
`call_sign` setter afterwards. -/
def AISMsgType5.init (mmsi imo : Nat) (call_sign ship_name : List Char) (ship_type : Int)
    (dimension : ShipDimension) (eta : ShipEta) (draught : ℚ) (destination : List Char) :
    Except Unit AISMsgType5 :=
  match call_sign_setter call_sign 0 with
  | .error e => .error e
  | .ok csp =>
    match ship_name_setter ship_name with
    | .error e => .error e
    | .ok snb =>
      match ship_type_setter ship_type with
      | .error e => .error e
      | .ok stb =>
        match draught_setter draught with
        | .error e => .error e
        | .ok drb =>
          match destination_setter destination with
          | .error e => .error e
          | .ok db =>
            .ok ⟨convert_int_to_bits 0 2 false, convert_int_to_bits (mmsi : Int) 30 false,
              csp.2, convert_int_to_bits 5 6 false, convert_int_to_bits 2 2 false,
              convert_int_to_bits (imo : Int) 30 false, csp.1, snb, stb,
              dimension.bits, convert_int_to_bits 1 4 false, eta.bits, drb, db,
              convert_int_to_bits 0 1 false, convert_int_to_bits 0 1 false⟩

/-- `AISMsgType5.payload_bits` (`nmea_msg.py` lines 330-338): the
concatenation of all field bit strings in the order of the f-string. -/
def AISMsgType5.payload_bits (m : AISMsgType5) : List Char :=
  m.msg_type ++ m.repeat_indicator ++ m.mmsi ++ m.ais_version ++ m.imo ++ m.call_sign ++
    m.ship_name ++ m.ship_type ++ m.dimension ++ m.pos_fix_type ++ m.eta ++ m.draught ++
    m.destination ++ m.dte ++ m.spare

/-- The `AISMsgType5` object built from the module's own example data
(`nmea_msg.py` lines 376-396, with draught 12.5): every field bit string
written out explicitly. -/
def exampleMsg5 : AISMsgType5 :=
  ⟨"00".toList, "001100001111010101000011011110".toList, 0, "000101".toList, "10".toList,
    "000000100010110110000010111110".toList,
    "110011000110001111000110111000100000100000".toList,
    ("000101010110000101010010100000000100001001000001000100000101001101100000" ++
      "100000100000100000100000100000100000100000100000").toList,
    "01000110".toList, "011100001001000110000001011111".toList, "0001".toList,
    "01010111101110000000".toList, "01111101".toList,
    ("001110000101010111100000011001001111010010001011100000100000100000100000" ++
      "100000100000100000100000100000100000100000100000").toList,
    "0".toList, "0".toList⟩

/-- Adapter used to state the string-field claims: the result of the
per-character ASCII6 loop as the setter returns it (`none`, the raised
`InvalidCharacterError`, becomes the error case). -/
def optionToExcept : Option (List Char) → Except Unit (List Char)
  | none => .error ()
  | some b => .ok b

/-- Python's `str()` of a natural number (decimal digits), as interpolated
by the f-string of `NMEAMessage.get_sentences`.  Fuel-based structural
recursion (`n + 1` is always enough fuel). -/
def natReprAux : Nat → Nat → List Char
  | 0, _ => []
  | fuel + 1, n =>
    if n < 10 then [Char.ofNat (48 + n)]
    else natReprAux fuel (n / 10) ++ [Char.ofNat (48 + n % 10)]

/-- Decimal rendering of a natural number. -/
def natRepr (n : Nat) : List Char := natReprAux (n + 1) n

/-- Upper-case hexadecimal digit, as produced by Python's `X` format. -/
def hexDigitChar (n : Nat) : Char :=
  if n < 10 then Char.ofNat (48 + n) else Char.ofNat (55 + n)

/-- Upper-case hexadecimal rendering, fuel-based. -/
def natToHexAux : Nat → Nat → List Char
  | 0, _ => []
  | fuel + 1, n =>
    if n < 16 then [hexDigitChar n]
    else natToHexAux fuel (n / 16) ++ [hexDigitChar (n % 16)]

/-- Modelled from the spec: `checksum` of the missing `nmea_utils` module
(spec 4.1): XOR of every byte of the sentence body, rendered as two
uppercase hexadecimal digits, zero-padded (Python `f'{checksum:02X}'`,
which pads with zeros to a minimum width of two). -/
def nmea_checksum (data : List Char) : List Char :=
  List.replicate
      (2 - (natToHexAux (data.foldl (fun acc c => acc ^^^ c.toNat) 0 + 1)
        (data.foldl (fun acc c => acc ^^^ c.toNat) 0)).length) '0' ++
    natToHexAux (data.foldl (fun acc c => acc ^^^ c.toNat) 0 + 1)
      (data.foldl (fun acc c => acc ^^^ c.toNat) 0)

/-- `textwrap.wrap` applied to a whitespace-free string: successive chunks
of `n` characters.  Fuel-based structural recursion (the list's length is
always enough fuel). -/
def wrapAux : Nat → Nat → List Char → List (List Char)
  | 0, _, _ => []
  | _ + 1, _, [] => []
  | fuel + 1, n, c :: cs => (c :: cs).take n :: wrapAux fuel n ((c :: cs).drop n)

/-- `textwrap.wrap(s, n)` for the whitespace-free armored payloads handled
here. -/
def wrap (n : Nat) (l : List Char) : List (List Char) := wrapAux l.length n l

/-- The comma-separated sentence body built by the f-string of
`NMEAMessage.get_sentences` (`nmea_msg.py` lines 368-369):
`AIVDM,{count},{index},{seq_id},{channel},{chunk},{fill}` with the channel
fixed at `'A'` (line 354). -/
def sentence_body (count index : Nat) (seqId chunk : List Char) (fill : Nat) : List Char :=
  ['A', 'I', 'V', 'D', 'M'] ++ ',' ::
    (natRepr count ++ ',' :: (natRepr index ++ ',' :: (seqId ++ ',' ::
      ('A' :: ',' :: (chunk ++ ',' :: natRepr fill)))))

/-- The state of an `NMEAMessage` object (`nmea_msg.py` lines 344-354). -/
structure NMEAMessage where
  payload_parts : List (List Char)
  number_of_sentences : Nat
  fill_bits : Nat

/-- `NMEAMessage.__init__` (`nmea_msg.py` lines 348-354): wraps
`payload.encode()` into chunks of 60 characters; `get_sentences` later
reads `payload.fill_bits`, whose value after that encode call is the
second component of `encoded`. -/
def NMEAMessage.init (encoded : List Char × Nat) : NMEAMessage :=
  ⟨wrap 60 encoded.1, (wrap 60 encoded.1).length, encoded.2⟩

/-- Final rendering of one sentence (`nmea_msg.py` line 370):
`'!' + data + '*' + checksum + CRLF`. -/
def mkSentence (body : List Char) : List Char :=
  '!' :: (body ++ '*' :: (nmea_checksum body ++ ['\r', '\n']))

/-- `NMEAMessage.get_sentences` (`nmea_msg.py` lines 356-371): one sentence
per payload part, 1-based index, the message's fill bits emitted only on
the last sentence, sequential message id `'1'` only for multi-sentence
messages. -/
def NMEAMessage.get_sentences (msg : NMEAMessage) : List (List Char) :=
  msg.payload_parts.enum.map (fun p =>
    mkSentence (sentence_body msg.number_of_sentences (p.1 + 1)
      (if 1 < msg.number_of_sentences then ['1'] else [])
      p.2
      (if p.1 + 1 = msg.number_of_sentences then msg.fill_bits else 0)))

/-- Observer used to state the framing claims: split a character list at
every comma. -/
def splitC : List Char → List (List Char)
  | [] => [[]]
  | c :: cs =>
    if c = ',' then [] :: splitC cs
    else
      match splitC cs with
      | [] => [[c]]
      | f :: rest => (c :: f) :: rest

/-- Observer: the text of a sentence between the leading `'!'` and the
`'*'` that introduces the checksum. -/
def sentenceBody (s : List Char) : List Char :=
  (s.drop 1).takeWhile (fun c => c ≠ '*')

/-- Observer: the `i`-th comma-separated field of a sentence's body
(0-based; field 3 is the fragment-group id, field 6 the fill-bits field). -/
def fieldOf (s : List Char) (i : Nat) : List Char := (splitC (sentenceBody s)).getD i []

/-- Is this character an upper-case hexadecimal digit? -/
def isUpperHexDigit (c : Char) : Bool :=
  (48 ≤ c.toNat && c.toNat ≤ 57) || (65 ≤ c.toNat && c.toNat ≤ 70)

theorem natToBitsAux_length (w : Nat) : ∀ n, (natToBitsAux w n).length = w := by
  induction w with
  | zero => intro n; rfl
  | succ w ih => intro n; simp [natToBitsAux, ih]

theorem natToBits_length (n w : Nat) : (natToBits n w).length = w := by
  simp [natToBits, natToBitsAux_length]

theorem convert_int_to_bits_length (num : Int) (bits_count : Nat) (signed : Bool) :
    (convert_int_to_bits num bits_count signed).length = bits_count := by
  unfold convert_int_to_bits
  exact natToBits_length _ _

theorem convert_bits_to_int_natToBits (w : Nat) :
    ∀ n, convert_bits_to_int (natToBits n w) = n % 2 ^ w := by
  induction w with
  | zero => intro n; simp [natToBits, natToBitsAux, convert_bits_to_int, Nat.mod_one]
  | succ w ih =>
    intro n
    have h : convert_bits_to_int (natToBits (n / 2) w) = n / 2 % 2 ^ w := ih (n / 2)
    simp only [natToBits, convert_bits_to_int, List.foldl_reverse] at h ⊢
    simp only [natToBitsAux, List.foldr_cons]
    rw [pow_succ', Nat.mod_mul]
    rcases Nat.mod_two_eq_zero_or_one n with h2 | h2 <;> simp [h2, h] <;> ring

/-- Armoring a payload of `L` bits yields `⌈L/6⌉` characters and adds
`(6 - L % 6) % 6` fill bits to the message's `fill_bits` attribute. -/
theorem encodeBits_spec : ∀ (n : Nat) (l : List Char) (fill : Nat), l.length ≤ n →
    (encodeBits l fill).1.length = (l.length + 5) / 6 ∧
      (encodeBits l fill).2 = fill + (6 - l.length % 6) % 6 := by
  intro n
  induction n with
  | zero =>
    intro l fill hl
    have : l = [] := List.length_eq_zero.mp (Nat.le_zero.mp hl)
    subst this
    simp [encodeBits]
  | succ n ih =>
    intro l fill hl
    match l with
    | [] => simp [encodeBits]
    | [a] => simp [encodeBits]
    | [a, b] => simp [encodeBits]
    | [a, b, c] => simp [encodeBits]
    | [a, b, c, d] => simp [encodeBits]
    | [a, b, c, d, e] => simp [encodeBits]
    | a :: b :: c :: d :: e :: g :: rest =>
      have hrest : rest.length ≤ n := by
        simp only [List.length_cons] at hl; omega
      have hr := ih rest fill hrest
      simp only [encodeBits, List.length_cons]
      constructor
      · simp only [List.length_cons, hr.1]; omega
      · rw [hr.2]
        have : (rest.length + 1 + 1 + 1 + 1 + 1 + 1) % 6 = rest.length % 6 := by omega
        rw [this]

/-- Two's-complement round trip: any integer within the signed range of a
`w`-bit field is recovered exactly by `decode_signed`. -/
theorem decode_signed_convert (i : Int) (w : Nat) (hw : 0 < w)
    (hlo : -(2 ^ (w - 1) : Int) ≤ i) (hhi : i < 2 ^ (w - 1)) :
    decode_signed (convert_int_to_bits i w true) = i := by
  have hA : (2 : Int) ^ w = 2 * 2 ^ (w - 1) := by
    conv_lhs => rw [← Nat.sub_add_cancel hw, pow_succ']
  have hBpos : (0 : Int) < 2 ^ (w - 1) := by positivity
  have hcast : ((2 ^ (w - 1) : Nat) : Int) = 2 ^ (w - 1) := by push_cast; ring
  have hcastw : ((2 ^ w : Nat) : Int) = 2 ^ w := by push_cast; ring
  by_cases hi : i < 0
  · have harg : convert_int_to_bits i w true = natToBits (2 ^ w + i).toNat w := by
      unfold convert_int_to_bits
      rw [if_pos (And.intro rfl hi)]
    have hge : (0 : Int) ≤ 2 ^ w + i := by linarith
    have hmi : (((2 ^ w + i).toNat : Nat) : Int) = 2 ^ w + i := Int.toNat_of_nonneg hge
    have hmlt : (2 ^ w + i).toNat < 2 ^ w := by
      have h1 : (((2 ^ w + i).toNat : Nat) : Int) < ((2 ^ w : Nat) : Int) := by
        rw [hmi, hcastw]; linarith
      exact_mod_cast h1
    have hnotlt : ¬ (2 ^ w + i).toNat < 2 ^ (w - 1) := by
      intro hcon
      have h1 : (((2 ^ w + i).toNat : Nat) : Int) < ((2 ^ (w - 1) : Nat) : Int) := by
        exact_mod_cast hcon
      rw [hmi, hcast] at h1
      linarith
    rw [harg]
    unfold decode_signed
    rw [natToBits_length, convert_bits_to_int_natToBits, Nat.mod_eq_of_lt hmlt,
      if_neg hnotlt, hmi]
    ring
  · have harg : convert_int_to_bits i w true = natToBits i.toNat w := by
      unfold convert_int_to_bits
      rw [if_neg (fun h => hi h.2)]
    have hge : (0 : Int) ≤ i := not_lt.mp hi
    have hmi : ((i.toNat : Nat) : Int) = i := Int.toNat_of_nonneg hge
    have hmlt : i.toNat < 2 ^ (w - 1) := by
      have h1 : ((i.toNat : Nat) : Int) < ((2 ^ (w - 1) : Nat) : Int) := by
        rw [hmi, hcast]; exact hhi
      exact_mod_cast h1
    have hle : (2 : Nat) ^ (w - 1) ≤ 2 ^ w := Nat.pow_le_pow_right (by norm_num) (Nat.sub_le w 1)
    rw [harg]
    unfold decode_signed
    rw [natToBits_length, convert_bits_to_int_natToBits,
      Nat.mod_eq_of_lt (lt_of_lt_of_le hmlt hle), if_pos hmlt, hmi]

/-- `ratTrunc` stays within any symmetric integer bound on its argument. -/
theorem ratTrunc_bound (q : ℚ) (M : Nat) (hlo : -(M : ℚ) ≤ q) (hhi : q ≤ (M : ℚ)) :
    -(M : Int) ≤ ratTrunc q ∧ ratTrunc q ≤ (M : Int) := by
  unfold ratTrunc
  by_cases h : q < 0
  · rw [if_pos h]
    constructor
    · have h2 : Int.ceil (((-(M : Int)) : Int) : ℚ) ≤ Int.ceil q := by
        apply Int.ceil_mono
        push_cast
        exact hlo
      rwa [Int.ceil_intCast] at h2
    · have h1 : Int.ceil q ≤ Int.ceil (0 : ℚ) := Int.ceil_mono (le_of_lt h)
      have h2 : Int.ceil (0 : ℚ) = 0 := by norm_num
      have h3 : (0 : Int) ≤ (M : Int) := Int.natCast_nonneg M
      linarith
  · rw [if_neg h]
    constructor
    · have h1 : Int.floor (0 : ℚ) ≤ Int.floor q := Int.floor_mono (not_lt.mp h)
      have h2 : Int.floor (0 : ℚ) = 0 := by norm_num
      have h3 : (0 : Int) ≤ (M : Int) := Int.natCast_nonneg M
      linarith
    · have h2 : Int.floor q ≤ Int.floor (((M : Int) : Int) : ℚ) := by
        apply Int.floor_mono
        push_cast
        exact hhi
      rwa [Int.floor_intCast] at h2

/-- C9: For all valid lat in [-90, 90] (and lon in [-180, 180]), the encoder
multiplies the decimal-degree value by 600000, truncates toward zero, and
encodes the result signed two's-complement at the declared width (28 bits
lon, 27 bits lat); decoding that signed bit-field back to an integer and
dividing by 600000 reproduces the scaled integer value used for encoding. -/
theorem claim_C9_latlon_roundtrip (v : ℚ) :
    (-90 ≤ v → v ≤ 90 →
      decode_signed (latlon_to_bits v 27) = ratTrunc (v * 600000) ∧
      (decode_signed (latlon_to_bits v 27) : ℚ) / 600000 = (ratTrunc (v * 600000) : ℚ) / 600000) ∧
    (-180 ≤ v → v ≤ 180 →
      decode_signed (latlon_to_bits v 28) = ratTrunc (v * 600000) ∧
      (decode_signed (latlon_to_bits v 28) : ℚ) / 600000 =
        (ratTrunc (v * 600000) : ℚ) / 600000) := by
  constructor
  · intro h1 h2
    have hb := ratTrunc_bound (v * 600000) 54000000 (by push_cast; linarith)
      (by push_cast; linarith)
    have heq : decode_signed (latlon_to_bits v 27) = ratTrunc (v * 600000) := by
      unfold latlon_to_bits
      apply decode_signed_convert _ 27 (by norm_num)
      · have hb1 := hb.1
        norm_num at hb1 ⊢
        linarith
      · have hb2 := hb.2
        norm_num at hb2 ⊢
        linarith
    exact ⟨heq, by rw [heq]⟩
  · intro h1 h2
    have hb := ratTrunc_bound (v * 600000) 108000000 (by push_cast; linarith)
      (by push_cast; linarith)
    have heq : decode_signed (latlon_to_bits v 28) = ratTrunc (v * 600000) := by
      unfold latlon_to_bits
      apply decode_signed_convert _ 28 (by norm_num)
      · have hb1 := hb.1
        norm_num at hb1 ⊢
        linarith
      · have hb2 := hb.2
        norm_num at hb2 ⊢
        linarith
    exact ⟨heq, by rw [heq]⟩

/-- Witness for C9 at the concrete boundary value 90 degrees. -/
theorem claim_C9_latlon_roundtrip_witness :
    decode_signed (latlon_to_bits 90 27) = ratTrunc ((90 : ℚ) * 600000) ∧
    decode_signed (latlon_to_bits 90 28) = ratTrunc ((90 : ℚ) * 600000) :=
  ⟨((claim_C9_latlon_roundtrip 90).1 (by norm_num) (by norm_num)).1,
   ((claim_C9_latlon_roundtrip 90).2 (by norm_num) (by norm_num)).1⟩

theorem ascii6_bits_length : ∀ (s b : List Char), ascii6_bits s = some b → b.length = 6 * s.length := by
  intro s
  induction s with
  | nil =>
    intro b h
    simp only [ascii6_bits, Option.some.injEq] at h
    simp [← h]
  | cons c cs ih =>
    intro b h
    simp only [ascii6_bits] at h
    cases hc : convert_ascii_char_to_ascii6_code c with
    | none => rw [hc] at h; simp at h
    | some code =>
      cases hr : ascii6_bits cs with
      | none => rw [hc, hr] at h; simp at h
      | some rest =>
        rw [hc, hr] at h
        simp only [Option.some.injEq] at h
        rw [← h, List.length_append, convert_int_to_bits_length, ih rest hr,
          List.length_cons]
        ring

theorem add_padding_length (t : List Char) (n : Nat) (h : t.length ≤ n) :
    (add_padding t n).length = n := by
  simp only [add_padding, List.length_append, List.length_replicate]
  omega

theorem call_sign_setter_ok (cs : List Char) (fb : Nat) (out : List Char × Nat)
    (h : call_sign_setter cs fb = .ok out) : out.1.length = 42 ∧ out.2 = fb := by
  unfold call_sign_setter at h
  split at h
  · exact Except.noConfusion h
  · rename_i hlen
    have hslen :
        (if cs.length = 0 then List.replicate 7 '@' else add_padding cs 7).length = 7 := by
      by_cases h0 : cs.length = 0
      · rw [if_pos h0]; simp
      · rw [if_neg h0]; exact add_padding_length _ _ (by omega)
    split at h
    · exact Except.noConfusion h
    · rename_i bits ha
      have hblen : bits.length = 42 := by
        rw [ascii6_bits_length _ bits ha, hslen]
      split at h
      · rename_i hlt
        exact absurd hlt (by omega)
      · injection h with h2
        rw [← h2]
        exact ⟨hblen, rfl⟩

theorem ship_name_setter_ok (sn b : List Char) (h : ship_name_setter sn = .ok b) :
    b.length = 120 := by
  unfold ship_name_setter at h
  split at h
  · exact Except.noConfusion h
  · rename_i hlen
    have hslen :
        (if sn.length = 0 then List.replicate 20 '@' else add_padding sn 20).length = 20 := by
      by_cases h0 : sn.length = 0
      · rw [if_pos h0]; simp
      · rw [if_neg h0]; exact add_padding_length _ _ (by omega)
    split at h
    · exact Except.noConfusion h
    · rename_i bits ha
      injection h with h2
      rw [← h2, ascii6_bits_length _ bits ha, hslen]

theorem destination_setter_ok (dest b : List Char) (h : destination_setter dest = .ok b) :
    b.length = 120 := by
  unfold destination_setter at h
  split at h
  · exact Except.noConfusion h
  · rename_i hlen
    have hslen :
        (if dest.length = 0 then List.replicate 20 '@' else add_padding dest 20).length = 20 := by
      by_cases h0 : dest.length = 0
      · rw [if_pos h0]; simp
      · rw [if_neg h0]; exact add_padding_length _ _ (by omega)
    split at h
    · exact Except.noConfusion h
    · rename_i bits ha
      injection h with h2
      rw [← h2, ascii6_bits_length _ bits ha, hslen]

theorem ship_type_setter_ok (v : Int) (b : List Char) (h : ship_type_setter v = .ok b) :
    b.length = 8 := by
  unfold ship_type_setter at h
  split at h
  · exact Except.noConfusion h
  · injection h with h2
    rw [← h2]
    exact convert_int_to_bits_length _ _ _

theorem draught_setter_ok (v : ℚ) (b : List Char) (h : draught_setter v = .ok b) :
    b.length = 8 := by
  unfold draught_setter at h
  split at h
  · exact Except.noConfusion h
  · injection h with h2
    rw [← h2]
    exact convert_int_to_bits_length _ _ _

theorem ShipDimension_bits_length (d : ShipDimension) : d.bits.length = 30 := by
  simp [ShipDimension.bits, convert_int_to_bits_length]

theorem ShipEta_bits_length (e : ShipEta) : e.bits.length = 20 := by
  simp [ShipEta.bits, convert_int_to_bits_length]

/-- Every successfully constructed `AISMsgType5` has a 424-bit payload and
`fill_bits = 0`. -/
theorem AISMsgType5_init_ok (mmsi imo : Nat) (cs sn : List Char) (st : Int)
    (dim : ShipDimension) (eta : ShipEta) (dr : ℚ) (dest : List Char) (m : AISMsgType5)
    (h : AISMsgType5.init mmsi imo cs sn st dim eta dr dest = .ok m) :
    m.payload_bits.length = 424 ∧ m.fill_bits = 0 := by
  unfold AISMsgType5.init at h
  split at h
  · exact Except.noConfusion h
  · rename_i csp hcs
    split at h
    · exact Except.noConfusion h
    · rename_i snb hsn
      split at h
      · exact Except.noConfusion h
      · rename_i stb hst
        split at h
        · exact Except.noConfusion h
        · rename_i drb hdr
          split at h
          · exact Except.noConfusion h
          · rename_i db hdb
            injection h with h2
            have hcso := call_sign_setter_ok cs 0 csp hcs
            rw [← h2]
            constructor
            · simp only [AISMsgType5.payload_bits, List.length_append,
                convert_int_to_bits_length, ShipDimension_bits_length, ShipEta_bits_length,
                hcso.1, ship_name_setter_ok sn snb hsn, ship_type_setter_ok st stb hst,
                draught_setter_ok dr drb hdr, destination_setter_ok dest db hdb]
            · exact hcso.2

/-- C3: For every AISMsgType5 instance, payload_bits is a bit string of
exactly 424 characters, and (on the first encode call, which starts from
the instance's fill-bit count 0) encode() returns an armored string of
exactly 71 characters with a fill-bit count of 2; for any payload of
exactly 168 bits (position report), encode() returns exactly 28 characters
with 0 fill-bits. -/
theorem claim_C3_payload_and_armoring :
    (∀ (mmsi imo : Nat) (cs sn : List Char) (st : Int) (dim : ShipDimension) (eta : ShipEta)
      (dr : ℚ) (dest : List Char) (m : AISMsgType5),
      AISMsgType5.init mmsi imo cs sn st dim eta dr dest = .ok m →
      m.payload_bits.length = 424 ∧ m.fill_bits = 0 ∧
        (encodeBits m.payload_bits m.fill_bits).1.length = 71 ∧
        (encodeBits m.payload_bits m.fill_bits).2 = 2) ∧
    (∀ l : List Char, l.length = 168 →
      (encodeBits l 0).1.length = 28 ∧ (encodeBits l 0).2 = 0) := by
  constructor
  · intro mmsi imo cs sn st dim eta dr dest m h
    obtain ⟨h424, hfill⟩ := AISMsgType5_init_ok mmsi imo cs sn st dim eta dr dest m h
    have henc := encodeBits_spec m.payload_bits.length m.payload_bits m.fill_bits (le_refl _)
    refine ⟨h424, hfill, ?_, ?_⟩
    · rw [henc.1, h424]
    · rw [henc.2, h424, hfill]
  · intro l hl
    have henc := encodeBits_spec l.length l 0 (le_refl _)
    constructor
    · rw [henc.1, hl]
    · rw [henc.2, hl]

/-- The draught setter at the concrete example value 12.5. -/
theorem draught_setter_12_5 : draught_setter (12.5 : ℚ) = .ok (natToBits 125 8) := by
  unfold draught_setter
  rw [if_neg (by norm_num), if_neg (by norm_num)]
  have h : ratTrunc ((12.5 : ℚ) * 10) = 125 := by norm_num [ratTrunc]
  rw [h]
  rfl

/-- The module's own example data (`nmea_msg.py` lines 376-396, draught
12.5) constructs exactly `exampleMsg5`. -/
theorem exampleInit_eq :
    AISMsgType5.init 205344990 9134270 "3FOF8".toList "EVER DIADEM".toList 70
      ⟨225, 70, 1, 31⟩ ⟨5, 15, 14, 0⟩ (12.5 : ℚ) "NEW YORK".toList = .ok exampleMsg5 := by
  unfold AISMsgType5.init
  rw [draught_setter_12_5]
  rfl

/-- Witness for C3: the example message has a 424-bit payload that armors
to 71 characters with 2 fill bits, and a concrete 168-bit payload armors
to 28 characters with 0 fill bits. -/
theorem claim_C3_payload_and_armoring_witness :
    AISMsgType5.init 205344990 9134270 "3FOF8".toList "EVER DIADEM".toList 70
      ⟨225, 70, 1, 31⟩ ⟨5, 15, 14, 0⟩ (12.5 : ℚ) "NEW YORK".toList = .ok exampleMsg5 ∧
    exampleMsg5.payload_bits.length = 424 ∧
    (encodeBits exampleMsg5.payload_bits exampleMsg5.fill_bits).1.length = 71 ∧
    (encodeBits exampleMsg5.payload_bits exampleMsg5.fill_bits).2 = 2 ∧
    (List.replicate 168 '0').length = 168 ∧
    (encodeBits (List.replicate 168 '0') 0).1.length = 28 ∧
    (encodeBits (List.replicate 168 '0') 0).2 = 0 := by
  have hmain := (claim_C3_payload_and_armoring.1 205344990 9134270 "3FOF8".toList
    "EVER DIADEM".toList 70 ⟨225, 70, 1, 31⟩ ⟨5, 15, 14, 0⟩ (12.5 : ℚ) "NEW YORK".toList
    exampleMsg5 exampleInit_eq)
  have hpos := claim_C3_payload_and_armoring.2 (List.replicate 168 '0')
    (List.length_replicate 168 '0')
  exact ⟨exampleInit_eq, hmain.1, hmain.2.2.1, hmain.2.2.2, List.length_replicate 168 '0',
    hpos.1, hpos.2⟩

/-- C10: For every call_sign input accepted by the AISMsgType5 call_sign
setter, the stored call-sign bit field has exactly 42 bits, so the setter's
zero-bit padding branch (which would overwrite the message's fill_bits
attribute) is never executed, and fill_bits is unchanged by setting
call_sign. -/
theorem claim_C10_call_sign_preserves_fill (cs : List Char) (fb : Nat) (out : List Char × Nat)
    (h : call_sign_setter cs fb = .ok out) : out.1.length = 42 ∧ out.2 = fb :=
  call_sign_setter_ok cs fb out h

/-- Witness for C10: the example call sign, with the fill-bits attribute at
5 before the assignment, stores 42 bits and leaves the attribute at 5. -/
theorem claim_C10_call_sign_preserves_fill_witness :
    call_sign_setter "3FOF8".toList 5 =
      .ok ("110011000110001111000110111000100000100000".toList, 5) ∧
    ("110011000110001111000110111000100000100000".toList).length = 42 := by
  have h : call_sign_setter "3FOF8".toList 5 =
      .ok ("110011000110001111000110111000100000100000".toList, 5) := by rfl
  exact ⟨h, (claim_C10_call_sign_preserves_fill "3FOF8".toList 5 _ h).1⟩

/-- Counterexample to C2: ship_type 0 is accepted by the repository's
validation layer (its test suite asserts `track.ship_type == 0` is valid),
yet `AISMsgType5` construction rejects it on domain-range grounds
(`nmea_msg.py` line 274: `if value not in range(1, 100): raise`). -/
theorem claim_C2_counterexample :
    AISMsgType5.init 205344990 9134270 "3FOF8".toList "EVER DIADEM".toList 0
      ⟨225, 70, 1, 31⟩ ⟨5, 15, 14, 0⟩ (12.5 : ℚ) "NEW YORK".toList = .error () := by
  rfl

/-- C2 as amended: the codec does re-validate the ship-type domain range:
the `AISMsgType5.ship_type` setter succeeds exactly on values in 1..99,
rejecting every other value with a `ValueError`, and within that range it
raises no error and stores the unsigned 8-bit encoding. -/
theorem claim_C2_ship_type_validation (v : Int) :
    ((∃ b, ship_type_setter v = .ok b) ↔ (1 ≤ v ∧ v ≤ 99)) ∧
    (1 ≤ v → v ≤ 99 → ship_type_setter v = .ok (convert_int_to_bits v 8 false)) := by
  constructor
  · constructor
    · rintro ⟨b, hb⟩
      unfold ship_type_setter at hb
      by_cases h : v < 1 ∨ 99 < v
      · rw [if_pos h] at hb
        exact Except.noConfusion hb
      · push_neg at h
        exact ⟨h.1, h.2⟩
    · rintro ⟨h1, h2⟩
      refine ⟨convert_int_to_bits v 8 false, ?_⟩
      unfold ship_type_setter
      rw [if_neg (by omega)]
  · intro h1 h2
    unfold ship_type_setter
    rw [if_neg (by omega)]

/-- Witness for the amended C2 at ship_type 70. -/
theorem claim_C2_ship_type_validation_witness :
    ship_type_setter 70 = .ok (convert_int_to_bits 70 8 false) :=
  (claim_C2_ship_type_validation 70).2 (by norm_num) (by norm_num)

/-- C8: For every draught value, a value below 0 raises an error (not
clamped); a value above 25.5 is clamped to 25.5 before scaling by 10 and
encoding unsigned at 8 bits (`int(25.5 * 10) = 255`), so draught 30
encodes to exactly the same 8-bit field as draught 25.5. -/
theorem claim_C8_draught_clamp (v : ℚ) :
    (v < 0 → draught_setter v = .error ()) ∧
    (25.5 < v → draught_setter v = .ok (convert_int_to_bits 255 8 false)) ∧
    draught_setter 30 = draught_setter (25.5 : ℚ) := by
  refine ⟨?_, ?_, ?_⟩
  · intro h
    unfold draught_setter
    rw [if_pos h]
  · intro h
    unfold draught_setter
    rw [if_neg (by linarith), if_pos h]
    have h255 : ratTrunc ((25.5 : ℚ) * 10) = 255 := by norm_num [ratTrunc]
    rw [h255]
  · unfold draught_setter
    rw [if_neg (by norm_num : ¬ (30 : ℚ) < 0), if_pos (by norm_num : (25.5 : ℚ) < 30),
      if_neg (by norm_num : ¬ (25.5 : ℚ) < 0), if_neg (by norm_num : ¬ (25.5 : ℚ) < 25.5)]

/-- Witness for C8 at draughts -1 and 30. -/
theorem claim_C8_draught_clamp_witness :
    draught_setter (-1 : ℚ) = .error () ∧
    draught_setter 30 = .ok (convert_int_to_bits 255 8 false) :=
  ⟨(claim_C8_draught_clamp (-1)).1 (by norm_num),
   (claim_C8_draught_clamp 30).2.1 (by norm_num)⟩

/-- C1 is violated by the code (`fill_bits` accumulates): on the module's
own example message the first `encode()` call leaves `fill_bits = 2`, but
a second `encode()` call on the same instance leaves `fill_bits = 4` - the
counter is not reset to zero per call, so the two calls do not yield an
identical fill-bit count. -/
theorem claim_C1_fill_bits_accumulation :
    ((AISMsgType5.init 205344990 9134270 "3FOF8".toList "EVER DIADEM".toList 70
      ⟨225, 70, 1, 31⟩ ⟨5, 15, 14, 0⟩ (12.5 : ℚ) "NEW YORK".toList).map
      (fun m => ((encodeBits m.payload_bits m.fill_bits).2,
        (encodeBits m.payload_bits (encodeBits m.payload_bits m.fill_bits).2).2))) =
    .ok (2, 4) := by
  rw [exampleInit_eq]
  rfl


/-- C7: For each fixed-length string field of AISMsgType5 (call_sign with
declared length 7, ship_name and destination with declared length 20): an
input shorter than the declared character count is right-padded with space
characters to that count before ASCII6 mapping; an input longer than the
declared count fails with a length error; an empty input is replaced with
all '@' characters at the declared length rather than spaces. -/
theorem claim_C7_fixed_length_strings (s : List Char) :
    ((20 < s.length → ship_name_setter s = .error ()) ∧
      (s.length = 0 →
        ship_name_setter s = optionToExcept (ascii6_bits (List.replicate 20 '@'))) ∧
      (0 < s.length → s.length ≤ 20 →
        ship_name_setter s =
          optionToExcept (ascii6_bits (s ++ List.replicate (20 - s.length) ' ')))) ∧
    ((20 < s.length → destination_setter s = .error ()) ∧
      (s.length = 0 →
        destination_setter s = optionToExcept (ascii6_bits (List.replicate 20 '@'))) ∧
      (0 < s.length → s.length ≤ 20 →
        destination_setter s =
          optionToExcept (ascii6_bits (s ++ List.replicate (20 - s.length) ' ')))) ∧
    (∀ fb : Nat,
      (7 < s.length → call_sign_setter s fb = .error ()) ∧
      (s.length = 0 →
        call_sign_setter s fb =
          (optionToExcept (ascii6_bits (List.replicate 7 '@'))).map (fun b => (b, fb))) ∧
      (0 < s.length → s.length ≤ 7 →
        call_sign_setter s fb =
          (optionToExcept (ascii6_bits (s ++ List.replicate (7 - s.length) ' '))).map
            (fun b => (b, fb)))) := by
  refine ⟨⟨?_, ?_, ?_⟩, ⟨?_, ?_, ?_⟩, ?_⟩
  · intro h
    unfold ship_name_setter
    rw [if_pos h]
  · intro h0
    unfold ship_name_setter
    rw [if_neg (by omega), if_pos h0]
    cases ha : ascii6_bits (List.replicate 20 '@') with
    | none => rfl
    | some bits => rfl
  · intro hpos hle
    unfold ship_name_setter
    rw [if_neg (by omega), if_neg (by omega)]
    unfold add_padding
    cases ha : ascii6_bits (s ++ List.replicate (20 - s.length) ' ') with
    | none => rfl
    | some bits => rfl
  · intro h
    unfold destination_setter
    rw [if_pos h]
  · intro h0
    unfold destination_setter
    rw [if_neg (by omega), if_pos h0]
    cases ha : ascii6_bits (List.replicate 20 '@') with
    | none => rfl
    | some bits => rfl
  · intro hpos hle
    unfold destination_setter
    rw [if_neg (by omega), if_neg (by omega)]
    unfold add_padding
    cases ha : ascii6_bits (s ++ List.replicate (20 - s.length) ' ') with
    | none => rfl
    | some bits => rfl
  · intro fb
    refine ⟨?_, ?_, ?_⟩
    · intro h
      unfold call_sign_setter
      rw [if_pos h]
    · intro h0
      unfold call_sign_setter
      rw [if_neg (by omega), if_pos h0]
      cases ha : ascii6_bits (List.replicate 7 '@') with
      | none => rfl
      | some bits =>
        have hblen : bits.length = 42 := by
          rw [ascii6_bits_length _ bits ha, List.length_replicate]
        show (if bits.length < 42 then Except.ok (add_padding_0_bits bits 42)
          else Except.ok (bits, fb)) =
          (optionToExcept (some bits)).map (fun b => (b, fb))
        rw [if_neg (by omega)]
        rfl
    · intro hpos hle
      unfold call_sign_setter
      rw [if_neg (by omega), if_neg (by omega)]
      unfold add_padding
      cases ha : ascii6_bits (s ++ List.replicate (7 - s.length) ' ') with
      | none => rfl
      | some bits =>
        have hlen7 : (s ++ List.replicate (7 - s.length) ' ').length = 7 := by
          rw [List.length_append, List.length_replicate]
          omega
        have hblen : bits.length = 42 := by
          rw [ascii6_bits_length _ bits ha, hlen7]
        show (if bits.length < 42 then Except.ok (add_padding_0_bits bits 42)
          else Except.ok (bits, fb)) =
          (optionToExcept (some bits)).map (fun b => (b, fb))
        rw [if_neg (by omega)]
        rfl

/-- Witness for C7 at the claim's own example: ship_name "STORM" is padded
with 15 spaces before ASCII6 mapping, and the empty ship_name becomes 20
'@' characters. -/
theorem claim_C7_fixed_length_strings_witness :
    ship_name_setter "STORM".toList =
      optionToExcept (ascii6_bits ("STORM".toList ++ List.replicate 15 ' ')) ∧
    ship_name_setter [] = optionToExcept (ascii6_bits (List.replicate 20 '@')) :=
  ⟨(claim_C7_fixed_length_strings "STORM".toList).1.2.2 (by decide) (by decide),
   (claim_C7_fixed_length_strings []).1.2.1 rfl⟩

theorem wrapAux_join (n : Nat) (hn : 0 < n) :
    ∀ (fuel : Nat) (l : List Char), l.length ≤ fuel → (wrapAux fuel n l).flatten = l := by
  intro fuel
  induction fuel with
  | zero =>
    intro l hl
    have : l = [] := List.length_eq_zero.mp (Nat.le_zero.mp hl)
    subst this
    rfl
  | succ fuel ih =>
    intro l hl
    cases l with
    | nil => rfl
    | cons c cs =>
      simp only [wrapAux, List.flatten_cons]
      simp only [List.length_cons] at hl
      rw [ih ((c :: cs).drop n) (by simp only [List.length_drop, List.length_cons]; omega)]
      exact List.take_append_drop n (c :: cs)

theorem wrapAux_parts_le (n : Nat) :
    ∀ (fuel : Nat) (l : List Char), ∀ p ∈ wrapAux fuel n l, p.length ≤ n := by
  intro fuel
  induction fuel with
  | zero => intro l p hp; simp [wrapAux] at hp
  | succ fuel ih =>
    intro l p hp
    cases l with
    | nil => simp [wrapAux] at hp
    | cons c cs =>
      simp only [wrapAux, List.mem_cons] at hp
      rcases hp with hp | hp
      · rw [hp]
        simp only [List.length_take]
        omega
      · exact ih _ p hp

theorem wrapAux_small (n : Nat) :
    ∀ (fuel : Nat) (l : List Char), 0 < l.length → l.length ≤ fuel → l.length ≤ n →
      wrapAux fuel n l = [l] := by
  intro fuel
  induction fuel with
  | zero => intro l h0 hf _; omega
  | succ fuel ih =>
    intro l h0 hf hn
    cases l with
    | nil => simp at h0
    | cons c cs =>
      simp only [wrapAux]
      rw [List.take_of_length_le hn, List.drop_eq_nil_of_le hn]
      cases fuel <;> rfl

theorem wrap_join (chars : List Char) : (wrap 60 chars).flatten = chars :=
  wrapAux_join 60 (by norm_num) chars.length chars (le_refl _)

theorem wrap_parts_le (chars : List Char) : ∀ p ∈ wrap 60 chars, p.length ≤ 60 :=
  wrapAux_parts_le 60 chars.length chars

theorem wrap_71 (chars : List Char) (h : chars.length = 71) :
    wrap 60 chars = [chars.take 60, chars.drop 60] := by
  unfold wrap
  rw [h]
  cases chars with
  | nil => simp at h
  | cons c cs =>
    simp only [wrapAux]
    rw [wrapAux_small 60 70 ((c :: cs).drop 60)
      (by simp only [List.length_drop]; omega)
      (by simp only [List.length_drop]; omega)
      (by simp only [List.length_drop]; omega)]

theorem get_sentences_length (msg : NMEAMessage) :
    msg.get_sentences.length = msg.payload_parts.length := by
  simp [NMEAMessage.get_sentences]

theorem get_sentences_getD (msg : NMEAMessage) (k : Nat)
    (hk : k < msg.payload_parts.length) :
    msg.get_sentences.getD k [] =
      mkSentence (sentence_body msg.number_of_sentences (k + 1)
        (if 1 < msg.number_of_sentences then ['1'] else [])
        (msg.payload_parts.getD k [])
        (if k + 1 = msg.number_of_sentences then msg.fill_bits else 0)) := by
  unfold NMEAMessage.get_sentences
  have hk2 : k < (msg.payload_parts.enum.map (fun p =>
      mkSentence (sentence_body msg.number_of_sentences (p.1 + 1)
        (if 1 < msg.number_of_sentences then ['1'] else [])
        p.2
        (if p.1 + 1 = msg.number_of_sentences then msg.fill_bits else 0)))).length := by
    simpa using hk
  rw [List.getD_eq_getElem _ _ hk2, List.getElem_map, List.getElem_enum,
    List.getD_eq_getElem _ _ hk]

theorem splitC_no_comma (l : List Char) (h : ∀ c ∈ l, c ≠ ',') : splitC l = [l] := by
  induction l with
  | nil => rfl
  | cons c cs ih =>
    have hc : c ≠ ',' := h c (List.mem_cons_self c cs)
    simp only [splitC, if_neg hc]
    rw [ih (fun x hx => h x (List.mem_cons_of_mem c hx))]

theorem splitC_append (l r : List Char) (h : ∀ c ∈ l, c ≠ ',') :
    splitC (l ++ ',' :: r) = l :: splitC r := by
  induction l with
  | nil => simp [splitC]
  | cons c cs ih =>
    have hc : c ≠ ',' := h c (List.mem_cons_self c cs)
    simp only [List.cons_append, splitC, if_neg hc, List.append_eq]
    rw [ih (fun x hx => h x (List.mem_cons_of_mem c hx))]

theorem splitC_cons_comma (a : Char) (r : List Char) (ha : a ≠ ',') :
    splitC (a :: ',' :: r) = [a] :: splitC r := by
  simp [splitC, if_neg ha]

theorem takeWhile_append_stop (p : Char → Bool) (x : Char) (hx : p x = false) :
    ∀ (l r : List Char), (∀ c ∈ l, p c = true) → (l ++ x :: r).takeWhile p = l := by
  intro l r hl
  induction l with
  | nil => simp [List.takeWhile_cons, hx]
  | cons c cs ih =>
    simp only [List.cons_append, List.takeWhile_cons, hl c (List.mem_cons_self c cs),
      if_true]
    rw [ih (fun d hd => hl d (List.mem_cons_of_mem c hd))]

theorem sentenceBody_mkSentence (body : List Char) (h : ∀ c ∈ body, c ≠ '*') :
    sentenceBody (mkSentence body) = body := by
  unfold sentenceBody mkSentence
  simp only [List.drop_succ_cons, List.drop_zero]
  exact takeWhile_append_stop _ '*' (by simp) body _ (fun c hc => by simp [h c hc])

theorem natReprAux_digits :
    ∀ (fuel n : Nat), ∀ c ∈ natReprAux fuel n, 48 ≤ c.toNat ∧ c.toNat ≤ 57 := by
  intro fuel
  induction fuel with
  | zero => intro n c hc; simp [natReprAux] at hc
  | succ fuel ih =>
    intro n c hc
    have hdig : ∀ m : Nat, m < 10 → (Char.ofNat (48 + m)).toNat = 48 + m := by decide
    simp only [natReprAux] at hc
    by_cases h : n < 10
    · rw [if_pos h] at hc
      simp only [List.mem_singleton] at hc
      rw [hc, hdig n h]
      omega
    · rw [if_neg h] at hc
      rcases List.mem_append.mp hc with hc | hc
      · exact ih _ c hc
      · simp only [List.mem_singleton] at hc
        have h10 : n % 10 < 10 := Nat.mod_lt n (by norm_num)
        rw [hc, hdig _ h10]
        omega

theorem natRepr_digits (n : Nat) : ∀ c ∈ natRepr n, 48 ≤ c.toNat ∧ c.toNat ≤ 57 :=
  natReprAux_digits (n + 1) n

theorem natRepr_no_comma (n : Nat) : ∀ c ∈ natRepr n, c ≠ ',' := by
  intro c hc he
  have := natRepr_digits n c hc
  rw [he] at this
  simp at this

theorem natRepr_no_star (n : Nat) : ∀ c ∈ natRepr n, c ≠ '*' := by
  intro c hc he
  have := natRepr_digits n c hc
  rw [he] at this
  simp at this

theorem foldl_xor_lt_128 :
    ∀ (l : List Char) (acc : Nat), acc < 128 → (∀ c ∈ l, c.toNat < 128) →
      l.foldl (fun a c => a ^^^ c.toNat) acc < 128 := by
  intro l
  induction l with
  | nil => intro acc h _; exact h
  | cons c cs ih =>
    intro acc hacc hl
    simp only [List.foldl_cons]
    apply ih
    · have hx : acc ^^^ c.toNat < 2 ^ 7 :=
        Nat.xor_lt_two_pow (by norm_num; exact hacc)
          (by norm_num; exact hl c (List.mem_cons_self c cs))
      norm_num at hx
      exact hx
    · intro x hx
      exact hl x (List.mem_cons_of_mem c hx)

theorem natToHexAux_small (m : Nat) (hm : m < 16) :
    ∀ fuel, 0 < fuel → natToHexAux fuel m = [hexDigitChar m] := by
  intro fuel hf
  cases fuel with
  | zero => omega
  | succ fuel => simp [natToHexAux, hm]

/-- For checksums below 256 (always the case for ASCII bodies), the
rendered checksum is exactly two uppercase hexadecimal digits. -/
theorem nmea_checksum_spec (data : List Char) (h : ∀ c ∈ data, c.toNat < 128) :
    (nmea_checksum data).length = 2 ∧
      ∀ c ∈ nmea_checksum data, isUpperHexDigit c = true := by
  have hxlt : data.foldl (fun a c => a ^^^ c.toNat) 0 < 128 :=
    foldl_xor_lt_128 data 0 (by norm_num) h
  have hdig : ∀ m : Nat, m < 16 → isUpperHexDigit (hexDigitChar m) = true := by decide
  have h0 : isUpperHexDigit '0' = true := by decide
  unfold nmea_checksum
  by_cases hsm : data.foldl (fun a c => a ^^^ c.toNat) 0 < 16
  · rw [natToHexAux_small _ hsm _ (by omega)]
    constructor
    · rfl
    · intro c hc
      have h2 : c = '0' ∨ c = hexDigitChar (data.foldl (fun a c => a ^^^ c.toNat) 0) := by
        simpa using hc
      rcases h2 with hc | hc
      · rw [hc]; exact h0
      · rw [hc]; exact hdig _ hsm
  · have hdiv : data.foldl (fun a c => a ^^^ c.toNat) 0 / 16 < 16 := by omega
    have hstep : natToHexAux (data.foldl (fun a c => a ^^^ c.toNat) 0 + 1)
        (data.foldl (fun a c => a ^^^ c.toNat) 0) =
        [hexDigitChar (data.foldl (fun a c => a ^^^ c.toNat) 0 / 16),
         hexDigitChar (data.foldl (fun a c => a ^^^ c.toNat) 0 % 16)] := by
      simp only [natToHexAux, if_neg hsm]
      rw [natToHexAux_small _ hdiv _ (by omega)]
      rfl
    rw [hstep]
    constructor
    · rfl
    · intro c hc
      have h2 : c = hexDigitChar (data.foldl (fun a c => a ^^^ c.toNat) 0 / 16) ∨
          c = hexDigitChar (data.foldl (fun a c => a ^^^ c.toNat) 0 % 16) := by
        simpa using hc
      rcases h2 with hc | hc
      · rw [hc]; exact hdig _ hdiv
      · rw [hc]; exact hdig _ (Nat.mod_lt _ (by norm_num))

/-- Any pointwise property that holds for the literal characters, for
decimal digits, for the fragment id and for the chunk holds for the whole
sentence body. -/
theorem sentence_body_forall (P : Char → Prop) (count index : Nat)
    (seqId chunk : List Char) (fill : Nat)
    (hA : P 'A') (hI : P 'I') (hV : P 'V') (hD : P 'D') (hM : P 'M') (hc : P ',')
    (hnum : ∀ n : Nat, ∀ c ∈ natRepr n, P c)
    (hseq : ∀ c ∈ seqId, P c) (hchunk : ∀ c ∈ chunk, P c) :
    ∀ c ∈ sentence_body count index seqId chunk fill, P c := by
  unfold sentence_body
  refine List.forall_mem_append.mpr ⟨?_, ?_⟩
  · intro c hcm
    have h5 : c = 'A' ∨ c = 'I' ∨ c = 'V' ∨ c = 'D' ∨ c = 'M' := by simpa using hcm
    rcases h5 with h | h | h | h | h <;> subst h <;> assumption
  refine List.forall_mem_cons.mpr ⟨hc, ?_⟩
  refine List.forall_mem_append.mpr ⟨hnum count, ?_⟩
  refine List.forall_mem_cons.mpr ⟨hc, ?_⟩
  refine List.forall_mem_append.mpr ⟨hnum index, ?_⟩
  refine List.forall_mem_cons.mpr ⟨hc, ?_⟩
  refine List.forall_mem_append.mpr ⟨hseq, ?_⟩
  refine List.forall_mem_cons.mpr ⟨hc, ?_⟩
  refine List.forall_mem_cons.mpr ⟨hA, ?_⟩
  refine List.forall_mem_cons.mpr ⟨hc, ?_⟩
  refine List.forall_mem_append.mpr ⟨hchunk, ?_⟩
  exact List.forall_mem_cons.mpr ⟨hc, hnum fill⟩

/-- Splitting the body of an emitted sentence at the commas recovers the
seven fields of the f-string. -/
theorem splitC_sentence_body (count index : Nat) (seqId chunk : List Char) (fill : Nat)
    (hseq : ∀ c ∈ seqId, c ≠ ',') (hchunk : ∀ c ∈ chunk, c ≠ ',') :
    splitC (sentence_body count index seqId chunk fill) =
      [['A', 'I', 'V', 'D', 'M'], natRepr count, natRepr index, seqId, ['A'], chunk,
        natRepr fill] := by
  unfold sentence_body
  rw [splitC_append ['A', 'I', 'V', 'D', 'M'] _ (by decide),
    splitC_append (natRepr count) _ (natRepr_no_comma count),
    splitC_append (natRepr index) _ (natRepr_no_comma index),
    splitC_append seqId _ hseq,
    splitC_cons_comma 'A' _ (by decide),
    splitC_append chunk _ hchunk,
    splitC_no_comma (natRepr fill) (natRepr_no_comma fill)]

/-- The comma-split of the body of the `k`-th sentence emitted for an
armored payload `chars` with fill-bit count `fill`. -/
theorem get_sentences_splitC (chars : List Char) (fill : Nat)
    (hchars : ∀ c ∈ chars, c ≠ ',' ∧ c ≠ '*') (k : Nat)
    (hk : k < (wrap 60 chars).length) :
    splitC (sentenceBody ((NMEAMessage.init (chars, fill)).get_sentences.getD k [])) =
      [['A', 'I', 'V', 'D', 'M'], natRepr (wrap 60 chars).length, natRepr (k + 1),
        (if 1 < (wrap 60 chars).length then ['1'] else []), ['A'],
        (wrap 60 chars).getD k [],
        natRepr (if k + 1 = (wrap 60 chars).length then fill else 0)] := by
  have hchunk_mem : (wrap 60 chars).getD k [] ∈ wrap 60 chars := by
    rw [List.getD_eq_getElem _ _ hk]
    exact List.getElem_mem _
  have hchunk : ∀ c ∈ (wrap 60 chars).getD k [], c ≠ ',' ∧ c ≠ '*' := by
    intro c hcm
    apply hchars
    have hflat : c ∈ (wrap 60 chars).flatten := List.mem_flatten.mpr ⟨_, hchunk_mem, hcm⟩
    rwa [wrap_join] at hflat
  have hseq_nc :
      ∀ c ∈ (if 1 < (wrap 60 chars).length then ['1'] else ([] : List Char)), c ≠ ',' := by
    split
    · intro c hcm
      have : c = '1' := by simpa using hcm
      rw [this]; decide
    · intro c hcm
      simp at hcm
  have hseq_ns :
      ∀ c ∈ (if 1 < (wrap 60 chars).length then ['1'] else ([] : List Char)), c ≠ '*' := by
    split
    · intro c hcm
      have : c = '1' := by simpa using hcm
      rw [this]; decide
    · intro c hcm
      simp at hcm
  rw [get_sentences_getD (NMEAMessage.init (chars, fill)) k hk]
  simp only [NMEAMessage.init]
  rw [sentenceBody_mkSentence _ (sentence_body_forall _ _ _ _ _ _ (by decide) (by decide)
    (by decide) (by decide) (by decide) (by decide) natRepr_no_star hseq_ns
    (fun c hcm => (hchunk c hcm).2))]
  exact splitC_sentence_body _ _ _ _ _ hseq_nc (fun c hcm => (hchunk c hcm).1)

/-- C4: For every NMEAMessage, get_sentences() emits a fill-bits field of 0
in every sentence except the last sentence, and the last sentence carries
the message's true fill-bit count; for a static/voyage message the armored
payload (71 chars) splits into exactly 2 sentences of 60 and 11 payload
characters with fill_bits=0 on sentence 1 and fill_bits=2 on sentence 2. -/
theorem claim_C4_fill_bits_field (chars : List Char) (fill : Nat)
    (hchars : ∀ c ∈ chars, c ≠ ',' ∧ c ≠ '*') :
    (∀ k, k < (wrap 60 chars).length →
      fieldOf ((NMEAMessage.init (chars, fill)).get_sentences.getD k []) 6 =
        if k + 1 = (wrap 60 chars).length then natRepr fill else ['0']) ∧
    (chars.length = 71 →
      (wrap 60 chars).length = 2 ∧
      ((wrap 60 chars).getD 0 []).length = 60 ∧
      ((wrap 60 chars).getD 1 []).length = 11 ∧
      fieldOf ((NMEAMessage.init (chars, fill)).get_sentences.getD 0 []) 6 = ['0'] ∧
      (fill = 2 →
        fieldOf ((NMEAMessage.init (chars, fill)).get_sentences.getD 1 []) 6 = ['2'])) := by
  have hmain : ∀ k, k < (wrap 60 chars).length →
      fieldOf ((NMEAMessage.init (chars, fill)).get_sentences.getD k []) 6 =
        if k + 1 = (wrap 60 chars).length then natRepr fill else ['0'] := by
    intro k hk
    unfold fieldOf
    rw [get_sentences_splitC chars fill hchars k hk]
    show natRepr (if k + 1 = (wrap 60 chars).length then fill else 0) =
      if k + 1 = (wrap 60 chars).length then natRepr fill else ['0']
    by_cases hP : k + 1 = (wrap 60 chars).length
    · rw [if_pos hP, if_pos hP]
    · rw [if_neg hP, if_neg hP]
      rfl
  refine ⟨hmain, ?_⟩
  intro h71
  have h2 : wrap 60 chars = [chars.take 60, chars.drop 60] := wrap_71 chars h71
  have hlen2 : (wrap 60 chars).length = 2 := by rw [h2]; rfl
  refine ⟨hlen2, ?_, ?_, ?_, ?_⟩
  · rw [h2]
    show (chars.take 60).length = 60
    rw [List.length_take]
    omega
  · rw [h2]
    show (chars.drop 60).length = 11
    rw [List.length_drop]
    omega
  · rw [hmain 0 (by omega), if_neg (by omega)]
  · intro hf2
    rw [hmain 1 (by omega), if_pos (by omega), hf2]
    rfl

/-- Witness for C4 on a concrete 71-character armored payload with 2 fill
bits. -/
theorem claim_C4_fill_bits_field_witness :
    (∀ c ∈ List.replicate 71 'P', c ≠ ',' ∧ c ≠ '*') ∧
    (wrap 60 (List.replicate 71 'P')).length = 2 ∧
    fieldOf ((NMEAMessage.init (List.replicate 71 'P', 2)).get_sentences.getD 0 []) 6 =
      ['0'] ∧
    fieldOf ((NMEAMessage.init (List.replicate 71 'P', 2)).get_sentences.getD 1 []) 6 =
      ['2'] := by
  have hch : ∀ c ∈ List.replicate 71 'P', c ≠ ',' ∧ c ≠ '*' := by decide
  have h := (claim_C4_fill_bits_field (List.replicate 71 'P') 2 hch).2
    (List.length_replicate 71 'P')
  exact ⟨hch, h.1, h.2.2.2.1, h.2.2.2.2 rfl⟩

/-- C5: For every NMEAMessage whose armored payload splits into more than
one chunk, every emitted sentence carries the same shared fragment-group
id, the single digit '1'; for every NMEAMessage whose armored payload fits
in one chunk, the fragment-group-id field is emitted empty. -/
theorem claim_C5_fragment_group_id (chars : List Char) (fill : Nat)
    (hchars : ∀ c ∈ chars, c ≠ ',' ∧ c ≠ '*') :
    (1 < (wrap 60 chars).length →
      ∀ k, k < (wrap 60 chars).length →
        fieldOf ((NMEAMessage.init (chars, fill)).get_sentences.getD k []) 3 = ['1']) ∧
    ((wrap 60 chars).length = 1 →
      ∀ k, k < (wrap 60 chars).length →
        fieldOf ((NMEAMessage.init (chars, fill)).get_sentences.getD k []) 3 = []) := by
  constructor
  · intro hgt k hk
    unfold fieldOf
    rw [get_sentences_splitC chars fill hchars k hk]
    show (if 1 < (wrap 60 chars).length then ['1'] else []) = ['1']
    rw [if_pos hgt]
  · intro heq k hk
    unfold fieldOf
    rw [get_sentences_splitC chars fill hchars k hk]
    show (if 1 < (wrap 60 chars).length then ['1'] else []) = []
    rw [if_neg (by omega)]

/-- Witness for C5: a 71-character payload (2 sentences) gets fragment id
'1' on its first sentence; a 10-character payload (1 sentence) gets an
empty fragment id field. -/
theorem claim_C5_fragment_group_id_witness :
    fieldOf ((NMEAMessage.init (List.replicate 71 'P', 2)).get_sentences.getD 0 []) 3 =
      ['1'] ∧
    fieldOf ((NMEAMessage.init (List.replicate 10 'P', 0)).get_sentences.getD 0 []) 3 =
      [] :=
  ⟨(claim_C5_fragment_group_id (List.replicate 71 'P') 2 (by decide)).1 (by decide) 0
      (by decide),
   (claim_C5_fragment_group_id (List.replicate 10 'P') 0 (by decide)).2 (by decide) 0
      (by decide)⟩

/-- C6: get_sentences() returns an ordered list in which the sentence index
starts at 1 and increments by 1, each payload chunk has at most 60
characters, the chunks in order concatenate back to the full armored
payload, and each sentence string has the exact form
`! AIVDM , count , index , fragid , channel , chunk , fillbits * CC CRLF`
where CC is two uppercase hex digits computed as the XOR checksum of the
body between `!` and `*`. -/
theorem claim_C6_sentence_format (chars : List Char) (fill : Nat)
    (hascii : ∀ c ∈ chars, c.toNat < 128) :
    (NMEAMessage.init (chars, fill)).get_sentences.length = (wrap 60 chars).length ∧
    (wrap 60 chars).flatten = chars ∧
    (∀ p ∈ wrap 60 chars, p.length ≤ 60) ∧
    (∀ k, k < (wrap 60 chars).length →
      ∃ body, body = sentence_body (wrap 60 chars).length (k + 1)
          (if 1 < (wrap 60 chars).length then ['1'] else [])
          ((wrap 60 chars).getD k [])
          (if k + 1 = (wrap 60 chars).length then fill else 0) ∧
        (NMEAMessage.init (chars, fill)).get_sentences.getD k [] =
          '!' :: (body ++ '*' :: (nmea_checksum body ++ ['\r', '\n'])) ∧
        (nmea_checksum body).length = 2 ∧
        ∀ c ∈ nmea_checksum body, isUpperHexDigit c = true) := by
  refine ⟨get_sentences_length _, wrap_join chars, wrap_parts_le chars, ?_⟩
  intro k hk
  refine ⟨_, rfl, ?_, ?_, ?_⟩
  · rw [get_sentences_getD (NMEAMessage.init (chars, fill)) k hk]
    rfl
  · refine (nmea_checksum_spec _ ?_).1
    apply sentence_body_forall (fun c => c.toNat < 128) _ _ _ _ _ (by decide) (by decide)
      (by decide) (by decide) (by decide) (by decide)
    · intro n c hcm
      have := natRepr_digits n c hcm
      omega
    · split
      · intro c hcm
        have : c = '1' := by simpa using hcm
        rw [this]; decide
      · intro c hcm
        simp at hcm
    · intro c hcm
      apply hascii
      have hmem : (wrap 60 chars).getD k [] ∈ wrap 60 chars := by
        rw [List.getD_eq_getElem _ _ hk]
        exact List.getElem_mem _
      have hflat : c ∈ (wrap 60 chars).flatten := List.mem_flatten.mpr ⟨_, hmem, hcm⟩
      rwa [wrap_join] at hflat
  · refine (nmea_checksum_spec _ ?_).2
    apply sentence_body_forall (fun c => c.toNat < 128) _ _ _ _ _ (by decide) (by decide)
      (by decide) (by decide) (by decide) (by decide)
    · intro n c hcm
      have := natRepr_digits n c hcm
      omega
    · split
      · intro c hcm
        have : c = '1' := by simpa using hcm
        rw [this]; decide
      · intro c hcm
        simp at hcm
    · intro c hcm
      apply hascii
      have hmem : (wrap 60 chars).getD k [] ∈ wrap 60 chars := by
        rw [List.getD_eq_getElem _ _ hk]
        exact List.getElem_mem _
      have hflat : c ∈ (wrap 60 chars).flatten := List.mem_flatten.mpr ⟨_, hmem, hcm⟩
      rwa [wrap_join] at hflat

/-- Witness for C6 on a concrete 61-character armored payload. -/
theorem claim_C6_sentence_format_witness :
    (∀ c ∈ List.replicate 61 'P', c.toNat < 128) ∧
    (NMEAMessage.init (List.replicate 61 'P', 1)).get_sentences.length =
      (wrap 60 (List.replicate 61 'P')).length ∧
    (wrap 60 (List.replicate 61 'P')).flatten = List.replicate 61 'P' := by
  have hch : ∀ c ∈ List.replicate 61 'P', c.toNat < 128 := by decide
  have h := claim_C6_sentence_format (List.replicate 61 'P') 1 hch
  exact ⟨hch, h.1, h.2.1⟩

theorem convert_bits_to_int_bound :
    ∀ (l : List Char) (acc : Nat),
      l.foldl (fun a c => 2 * a + (if c = '1' then 1 else 0)) acc < (acc + 1) * 2 ^ l.length := by
  intro l
  induction l with
  | nil => intro acc; simp
  | cons c cs ih =>
    intro acc
    simp only [List.foldl_cons, List.length_cons]
    have h1 := ih (2 * acc + (if c = '1' then 1 else 0))
    have h2 : (2 * acc + (if c = '1' then 1 else 0) + 1) * 2 ^ cs.length ≤
        (acc + 1) * 2 ^ (cs.length + 1) := by
      rw [pow_succ]
      have hb : (if c = '1' then 1 else 0) ≤ 1 := by split <;> omega
      nlinarith [Nat.pos_pow_of_pos cs.length (show 0 < 2 by norm_num)]
    omega

theorem convert_bits_to_int_lt (l : List Char) : convert_bits_to_int l < 2 ^ l.length := by
  have := convert_bits_to_int_bound l 0
  simpa [convert_bits_to_int] using this

theorem armorChar_range (item : List Char) (h : item.length = 6) :
    48 ≤ (armorChar item).toNat ∧ (armorChar item).toNat ≤ 119 := by
  have hv : convert_bits_to_int item < 64 := by
    have h2 := convert_bits_to_int_lt item
    rw [h] at h2
    norm_num at h2
    exact h2
  have hall : ∀ v : Nat, v < 64 →
      48 ≤ (get_char_of_ascii_code (convert_decimal_to_ascii_code v)).toNat ∧
        (get_char_of_ascii_code (convert_decimal_to_ascii_code v)).toNat ≤ 119 := by decide
  exact hall _ hv

/-- Every character of an armored payload lies in the AIVDM armoring
alphabet (ASCII 48-119); in particular it is never a comma, never an
asterisk, and always ASCII.  This discharges, for real encoder outputs,
the hypotheses of the sentence-framing theorems. -/
theorem encodeBits_armored :
    ∀ (n : Nat) (l : List Char) (fill : Nat), l.length ≤ n →
      ∀ c ∈ (encodeBits l fill).1, (c ≠ ',' ∧ c ≠ '*') ∧ c.toNat < 128 := by
  have hof : ∀ item : List Char, item.length = 6 →
      ((armorChar item ≠ ',' ∧ armorChar item ≠ '*') ∧ (armorChar item).toNat < 128) := by
    intro item h
    have hr := armorChar_range item h
    refine ⟨⟨?_, ?_⟩, by omega⟩
    · intro he
      rw [he] at hr
      simp at hr
    · intro he
      rw [he] at hr
      simp at hr
  intro n
  induction n with
  | zero =>
    intro l fill hl
    have : l = [] := List.length_eq_zero.mp (Nat.le_zero.mp hl)
    subst this
    intro c hc
    simp [encodeBits] at hc
  | succ n ih =>
    intro l fill hl c hc
    match l with
    | [] => simp [encodeBits] at hc
    | [a] =>
      simp only [encodeBits, List.mem_singleton] at hc
      rw [hc]; exact hof _ rfl
    | [a, b] =>
      simp only [encodeBits, List.mem_singleton] at hc
      rw [hc]; exact hof _ rfl
    | [a, b, d] =>
      simp only [encodeBits, List.mem_singleton] at hc
      rw [hc]; exact hof _ rfl
    | [a, b, d, e] =>
      simp only [encodeBits, List.mem_singleton] at hc
      rw [hc]; exact hof _ rfl
    | [a, b, d, e, f] =>
      simp only [encodeBits, List.mem_singleton] at hc
      rw [hc]; exact hof _ rfl
    | a :: b :: d :: e :: f :: g :: rest =>
      simp only [encodeBits, List.mem_cons] at hc
      rcases hc with hc | hc
      · rw [hc]; exact hof _ rfl
      · have hrest : rest.length ≤ n := by
          simp only [List.length_cons] at hl
          omega
        exact ih rest fill hrest c hc
